import Mathlib

/-!
# Verification of the `founder` history/merge/selector model

A shallow embedding of `src/main.rs` of the `founder` interactive file
finder.  Paths, history records and pipe contents are byte lists
(`List Nat`, each entry one byte).  The embedding follows the Rust source:

* `history_lines_from_most_recent`, `compact_history_file` — the history
  log and its compaction (`main.rs` lines 56–113);
* `write_path_to_fzf` / `expand_selection` — the `~` display translation
  (lines 137–182), on top of a model of Rust `std::path` component
  parsing (`components`, `startsWith`, `stripPrefixBytes`);
* `path_abs` / `add_path_to_history` — lexical absolutization and the
  history append (lines 115–134);
* `history_feed` / `fd_loop` / `input_thread_inner_feed` — the merge
  feeder (lines 187–242);
* `run_finder_loop` / `founder_main` — the selection state machine and
  process-level result joining (lines 340–444);
* `file_history_reads` — the once-only caching of the history bytes
  (lines 38–53).
-/

namespace Founder

/-- One byte of a Unix path / pipe stream (values are used only for
equality tests, so `Nat` is an adequate carrier; `47` is the path
separator `/`, `10` is the newline, `46` is `.`, `126` is `~`). -/
abbrev Byte := Nat

/-- Split a byte list at every occurrence of `sep`, accumulating the
current chunk in reverse (models `bstr::split_str` and the chunk
structure used by `std::path` component parsing).  The result always has
at least one element, and separators are not part of any chunk. -/
def splitSepAux (sep : Byte) : List Byte → List Byte → List (List Byte)
  | [], acc => [acc.reverse]
  | b :: t, acc =>
    if b = sep then acc.reverse :: splitSepAux sep t []
    else splitSepAux sep t (b :: acc)

/-- Split a byte list on a separator byte. -/
def splitSep (sep : Byte) (p : List Byte) : List (List Byte) :=
  splitSepAux sep p []

/-- Join chunks back with a separator byte (inverse of `splitSep`). -/
def rejoin (sep : Byte) : List (List Byte) → List Byte
  | [] => []
  | [c] => c
  | c :: cs => c ++ sep :: rejoin sep cs

/-- The byte image of a list of records written oldest-to-newest, each
followed by a newline, exactly as `compact_history_file` and
`add_path_to_history` write them. -/
def recordsBytes (ls : List (List Byte)) : List Byte :=
  ls.flatMap (fun l => l ++ [10])

/-! ## Rust `std::path` components (Unix)

`Path::starts_with` and `Path::strip_prefix` compare paths component-wise.
On Unix a path splits at `/` into chunks; an empty chunk or a `.` chunk is
not a component (except that a leading `.` chunk of a root-less path is
the `CurDir` component, and a leading `/` is the `RootDir` component);
`..` is `ParentDir`; anything else is a `Normal` component.
`Components::as_path` (used by `strip_prefix` to produce the remaining
path) drops leading and trailing non-component chunks together with their
separators once the front of the iterator is inside the path body. -/

/-- A Rust `std::path::Component` on Unix (no prefixes). -/
inductive PathComp where
  | rootDir : PathComp
  | curDir : PathComp
  | parentDir : PathComp
  | normal : List Byte → PathComp
deriving DecidableEq

/-- A chunk between separators that does not form a component: empty
(consecutive or trailing separators) or `.` away from the start. -/
def junkChunk (c : List Byte) : Bool :=
  decide (c = [] ∨ c = [46])

/-- The component a non-junk body chunk denotes. -/
def compOf (c : List Byte) : PathComp :=
  if c = [46, 46] then .parentDir else .normal c

/-- The separator chunks of a path: `splitSep` at `/`. -/
def chunks (p : List Byte) : List (List Byte) :=
  splitSep 47 p

/-- Parse the body chunks of a path, recording for each component the
chunk list that remains after it (the raw tail `Components::as_path`
starts from, up to trimming). -/
def bodyCompsR : List (List Byte) → List (PathComp × List (List Byte))
  | [] => []
  | c :: cs =>
    if junkChunk c then bodyCompsR cs
    else (compOf c, cs) :: bodyCompsR cs

/-- The components of a path with, for each, the chunk list remaining
after it.  A leading `/` is `RootDir` (extra separators after it are junk
chunks); a leading `.` chunk of a root-less path is `CurDir`. -/
def compsRests (p : List Byte) : List (PathComp × List (List Byte)) :=
  if p.head? = some 47 then
    (.rootDir, chunks (p.drop 1)) :: bodyCompsR (chunks (p.drop 1))
  else
    match chunks p with
    | [] => []
    | c :: cs =>
      if c = [46] then (.curDir, cs) :: bodyCompsR cs
      else bodyCompsR (c :: cs)

/-- `Path::components` as a list. -/
def components (p : List Byte) : List PathComp :=
  (compsRests p).map Prod.fst

/-- `Path::starts_with`: component-wise prefix test. -/
def startsWith (base p : List Byte) : Bool :=
  decide (components base <+: components p)

/-- The components denoted by a list of body chunks. -/
def bodyComps (cs : List (List Byte)) : List PathComp :=
  cs.filterMap (fun c => if junkChunk c then none else some (compOf c))

/-- Drop leading junk chunks (the `trim_left` of `Components::as_path`,
which also consumes each dropped chunk's separator). -/
def trimFrontChunks (cs : List (List Byte)) : List (List Byte) :=
  cs.dropWhile junkChunk

/-- Drop trailing junk chunks (the `trim_right` of
`Components::as_path`). -/
def trimBackChunks (cs : List (List Byte)) : List (List Byte) :=
  (cs.reverse.dropWhile junkChunk).reverse

/-- The bytes of `p.strip_prefix(base).unwrap()`, assuming
`p.starts_with(base)`: consume as many leading components of `p` as
`base` has, then rebuild the remaining bytes the way
`Components::as_path` does (both ends trimmed of junk chunks, because
after consuming at least one component the iterator front is inside the
body).  When `base` has no components (only possible for empty `base`,
never the case for the home directory or for `~`), `strip_prefix`
returns `p` itself up to right trimming; the program never takes that
path, and the model returns `p` there. -/
def stripPrefixBytes (base p : List Byte) : List Byte :=
  match (components base).length with
  | 0 => p
  | k + 1 =>
    match (compsRests p).get? k with
    | some pr => rejoin 47 (trimBackChunks (trimFrontChunks pr.2))
    | none => p

/-! ## Display translation (`main.rs` 137–182) -/

/-- The path bytes `write_path_to_fzf` (`main.rs` 137–163) emits for
`path_bytes`, without the trailing newline it always appends:
a path under the home directory is rewritten to `~/` + the stripped
rest; a path whose first component is literally `~` is protected with a
leading `./`; anything else passes through.  `home` is the (environment
supplied) home directory, `MAIN_SEPARATOR` is `/` (Unix). -/
def toDisplay (home p : List Byte) : List Byte :=
  if startsWith home p then 126 :: 47 :: stripPrefixBytes home p
  else if startsWith [126] p then 46 :: 47 :: p
  else p

/-- The full line `write_path_to_fzf` writes: display form plus `\n`. -/
def write_path_to_fzf (home p : List Byte) : List Byte :=
  toDisplay home p ++ [10]

/-- `expand_selection` (`main.rs` 166–182): if the first component of the
selection is `~`, replace it by the home directory plus a separator;
otherwise return the selection unchanged. -/
def expand_selection (home sel : List Byte) : List Byte :=
  if startsWith [126] sel then home ++ 47 :: stripPrefixBytes [126] sel
  else sel

/-! ## Lexical absolutization and history append (`main.rs` 115–134) -/

/-- Resolve the body components of an absolute path lexically: `Normal`
pushes a name, `ParentDir` pops one and fails past the root, the other
component kinds cannot occur in body components. -/
def resolveStack : List PathComp → List (List Byte) → Option (List (List Byte))
  | [], st => some st
  | .normal c :: rest, st => resolveStack rest (st ++ [c])
  | .parentDir :: rest, st =>
    match st with
    | [] => none
    | _ => resolveStack rest st.dropLast
  | .curDir :: rest, st => resolveStack rest st
  | .rootDir :: rest, st => resolveStack rest st

/-- `path_abs::PathAbs::new` as used by `add_path_to_history`
(`main.rs` 122): lexically absolutize a path without touching the
filesystem — join a relative path onto the current directory, then
resolve `.` and `..` components, failing when `..` would climb past the
root (the crate is a dependency, not part of `src/`; this follows the
spec §4.1: “lexically absolutizes `path` (no existence check, no symlink
resolution)”).  `cwd` is assumed absolute (it comes from the OS). -/
def path_abs (cwd p : List Byte) : Option (List Byte) :=
  let full := if p.head? = some 47 then p else cwd ++ 47 :: p
  if full.head? = some 47 then
    match resolveStack (bodyComps (chunks (full.drop 1))) [] with
    | some st => some (if st = [] then [47] else 47 :: rejoin 47 st)
    | none => none
  else none

/-- The newline-terminated record `add_path_to_history` (`main.rs`
115–134) appends to the history file for the byte argument `path`:
the absolutized path with one `\n` pushed onto it (line 127); `none`
models the `?`-propagated `PathAbs::new` failure. -/
def add_path_to_history (cwd path : List Byte) : Option (List Byte) :=
  (path_abs cwd path).map (fun abs => abs ++ [10])

/-! ## The merge feeder (`main.rs` 187–242) -/

/-- The relativization applied to one history line inside
`input_thread_inner` (lines 204–210): strip the cwd prefix when the line
is under the cwd; otherwise keep it only in “everything mode”
(`mode.global_history`). -/
def relativizeLine (cwd : List Byte) (global : Bool) (line : List Byte) :
    Option (List Byte) :=
  if startsWith cwd line then some (stripPrefixBytes cwd line)
  else if global then some line else none

/-- The history phase of `input_thread_inner` (lines 202–218): walk the
history lines newest first, relativize, skip lines already in
`seen_history`, and otherwise emit the line and insert it into the set.
Returns the emitted lines (in order) and the final seen set (the
`HashSet` is modelled as a list queried with `∈`). -/
def history_feed (cwd : List Byte) (global : Bool) :
    List (List Byte) → List (List Byte) → List (List Byte) × List (List Byte)
  | seen, [] => ([], seen)
  | seen, line :: ls =>
    match relativizeLine cwd global line with
    | none => history_feed cwd global seen ls
    | some rl =>
      if rl ∈ seen then history_feed cwd global seen ls
      else
        let rec_result := history_feed cwd global (rl :: seen) ls
        (rl :: rec_result.1, rec_result.2)

/-- The fd phase of `input_thread_inner` (lines 220–241): every scanner
line (already stripped of its newline) is checked against the seen set
and emitted when absent.  The loop never inserts into the set. -/
def fd_loop (seen : List (List Byte)) : List (List Byte) → List (List Byte)
  | [] => []
  | l :: ls =>
    if l ∈ seen then fd_loop seen ls
    else l :: fd_loop seen ls

/-- The full merged feed `input_thread_inner` hands to
`write_path_to_fzf` (and hence to fzf, each line in display form with a
newline): the history-phase emissions followed by the fd-phase
emissions, deduplicated against the history-phase seen set. -/
def input_thread_inner_feed (cwd : List Byte) (global : Bool)
    (historyLines fdLines : List (List Byte)) : List (List Byte) :=
  let hist := history_feed cwd global [] historyLines
  hist.1 ++ fd_loop hist.2 fdLines

/-! ## The finder loop (`main.rs` 284–412) and `main` (429–444) -/

/-- `struct Mode` (`main.rs` 334–338). -/
structure Mode where
  global_history : Bool
  fd_hidden_files : Bool
  mode_name : List Byte
deriving DecidableEq

/-- The mode table of `run_finder_loop` (lines 345–357): mode number `0`
is `local`, `1` is `everything`; any other number is the
`unreachable!` panic, modelled as `none`. -/
def modeOf (m : Nat) : Option Mode :=
  if m = 0 then
    some ⟨false, false, [108, 111, 99, 97, 108]⟩
  else if m = 1 then
    some ⟨true, true, [101, 118, 101, 114, 121, 116, 104, 105, 110, 103]⟩
  else none

/-- The bytes of the fzf `--expect` key token `ctrl-t`. -/
def ctrlT : List Byte := [99, 116, 114, 108, 45, 116]

/-- One captured fzf run: its exit status (`success` plus the optional
exit code, as in `std::process::ExitStatus`) and its stdout bytes. -/
structure FzfResult where
  success : Bool
  code : Option Int
  stdout : List Byte
deriving DecidableEq

/-- How the modelled `run_finder_loop` ends. -/
inductive ExitKind where
  /-- The selection branch returned `Ok(())` (lines 387–396). -/
  | normalOk : ExitKind
  /-- An error was propagated with `?` (only `add_path_to_history`
  failures are modelled; IO errors are out of scope). -/
  | normalErr : ExitKind
  /-- `std::process::exit(code)` was called (line 383). -/
  | exited : Int → ExitKind
  /-- One of the `expect`/`panic!` calls fired (lines 366–368, 406–409)
  or the mode number was invalid (line 356). -/
  | panicked : ExitKind
  /-- The supplied list of fzf results was exhausted: the real program
  would still be blocked inside `run_finder_once`. -/
  | starved : ExitKind
deriving DecidableEq

/-- The observable outcome of `run_finder_loop`: how it ended, the
records appended to the history file, the bytes written to stdout, and
the `(mode_number, query)` of every `run_finder_once` invocation in
order. -/
structure RunResult where
  exit : ExitKind
  appended : List (List Byte)
  printed : List Byte
  invocations : List (Nat × List Byte)
deriving DecidableEq

/-- `run_finder_loop` (`main.rs` 340–412) driven by a list of fzf
results, one per `run_finder_once` invocation.  `home` feeds
`expand_selection`, `cwd` feeds the absolutization of the accepted
selection, `noNewline` is `--no-newline`.  The fzf output is split on
`\n`; the first three fields are query, key and selection (`expect`
panics when a field is missing, lines 366–368).  An empty key is the
accept case: a failing fzf status exits the process with that status'
code (`unwrap_or(1)`) before anything is appended or printed; otherwise
the selection is expanded, absolutized and appended, then printed with a
trailing newline unless suppressed.  The `ctrl-t` key advances the mode
number mod 2 and carries the echoed query into the next iteration. -/
def run_finder_loop (home cwd : List Byte) (noNewline : Bool) :
    Nat → List Byte → List FzfResult → RunResult
  | m, pq, [] => ⟨.starved, [], [], [(m, pq)]⟩
  | m, pq, r :: rs =>
    match modeOf m with
    | none => ⟨.panicked, [], [], []⟩
    | some _ =>
      let parts := splitSep 10 r.stdout
      match parts.get? 0, parts.get? 1, parts.get? 2 with
      | some q, some key, some sel =>
        if key = [] then
          if r.success = false then
            ⟨.exited (r.code.getD 1), [], [], [(m, pq)]⟩
          else
            let selection := expand_selection home sel
            match add_path_to_history cwd selection with
            | none => ⟨.normalErr, [], [], [(m, pq)]⟩
            | some rec_bytes =>
              ⟨.normalOk, [rec_bytes],
                selection ++ (if noNewline then [] else [10]), [(m, pq)]⟩
        else if key = ctrlT then
          let rest := run_finder_loop home cwd noNewline ((m + 1) % 2) q rs
          ⟨rest.exit, rest.appended, rest.printed, (m, pq) :: rest.invocations⟩
        else ⟨.panicked, [], [], [(m, pq)]⟩
      | _, _, _ => ⟨.panicked, [], [], [(m, pq)]⟩

/-- How the whole process ends. -/
inductive ProcessEnd where
  /-- `std::process::exit` fired inside the finder loop; the compactor
  thread was never joined. -/
  | exited : Int → Bool → ProcessEnd
  /-- `main` returned; `success` is whether the final
  `command_result.and(compactor_result)` was `Ok`; the `Bool` records
  that the compactor was joined. -/
  | finished : Bool → Bool → ProcessEnd
deriving DecidableEq

/-- Whether the compactor thread's result was joined before the process
ended. -/
def ProcessEnd.joinedCompactor : ProcessEnd → Bool
  | .exited _ j => j
  | .finished _ j => j

/-- `main` (`main.rs` 429–444): the compactor thread is spawned first;
the command (here: the finder loop) runs; then `compactor_thread.join()`
and `command_result.and(compactor_result)`.  When the command result is
an in-loop `std::process::exit`, the process ends immediately and the
join never happens.  `compactorOk` is whether `compact_history_file`
returned `Ok`.  Panic unwinding is out of scope: `panicked`/`starved`
command results are mapped to an abort that also never joins. -/
def founder_main (cmd : RunResult) (compactorOk : Bool) : ProcessEnd :=
  match cmd.exit with
  | .exited c => .exited c false
  | .normalOk => .finished compactorOk true
  | .normalErr => .finished false true
  | .panicked => .exited 101 false
  | .starved => .exited 101 false

/-! ## History log (`main.rs` 16, 38–59, 71–113) -/

/-- `MAX_HISTORY_LINES` from `main.rs` line 16. -/
def MAX_HISTORY_LINES : Nat := 1000

/-- `history_lines_from_most_recent` (`main.rs` 56–59): split the cached
history bytes on newlines, iterate from the end (`rsplit_str`), and drop
empty lines.  Lines do not include the terminating newline. -/
def history_lines_from_most_recent (bytes : List Byte) : List (List Byte) :=
  ((splitSep 10 bytes).reverse).filter (fun l => decide (l ≠ []))

/-- The dedup pass of `compact_history_file` (`main.rs` 74–82): walk the
lines (newest first), keep the first occurrence of each distinct line.
`seen` models the `HashSet` `lines_set`; the result is
`ordered_unique_lines`. -/
def dedupFirstAux (seen : List (List Byte)) : List (List Byte) → List (List Byte)
  | [] => []
  | l :: ls =>
    if l ∈ seen then dedupFirstAux seen ls
    else l :: dedupFirstAux (l :: seen) ls

/-- `ordered_unique_lines` built from an empty seen set. -/
def dedupFirst (ls : List (List Byte)) : List (List Byte) :=
  dedupFirstAux [] ls

/-- `compact_history_file` (`main.rs` 71–113) as a function from the old
history-file bytes to the new file contents: `none` means the function
short-circuited at line 84 (`total_lines <= MAX_HISTORY_LINES`) and left
the file untouched; `some out` means the temporary file holding `out` was
renamed over the log.  The kept lines are truncated to
`MAX_HISTORY_LINES / 2` and written oldest-to-newest (lines 91–107). -/
def compact_history_file (bytes : List Byte) : Option (List Byte) :=
  let lines := history_lines_from_most_recent bytes
  let total_lines := lines.length
  let ordered_unique_lines := dedupFirst lines
  if total_lines ≤ MAX_HISTORY_LINES then none
  else some (recordsBytes ((ordered_unique_lines.take (MAX_HISTORY_LINES / 2)).reverse))

/-! ## The `OnceCell` cache of the history bytes (`main.rs` 38–53) -/

/-- One call to `file_history_bytes` given the cell state and the bytes
the history file holds on disk at that moment: a filled cell returns its
cached bytes; an empty cell reads the disk (a missing file reads as
empty) and fills the cell. -/
def file_history_bytes (cell : Option (List Byte)) (disk : List Byte) :
    List Byte × Option (List Byte) :=
  match cell with
  | some b => (b, some b)
  | none => (disk, some disk)

/-- A whole process' calls to `file_history_bytes`: `disks` gives the
on-disk bytes at each call time (appends from this or other processes may
change them between calls).  Returns the bytes each call observed and
how many calls actually read the disk. -/
def file_history_reads :
    Option (List Byte) → List (List Byte) → List (List Byte) × Nat
  | _, [] => ([], 0)
  | cell, d :: ds =>
    let step := file_history_bytes cell d
    let rest := file_history_reads step.2 ds
    (step.1 :: rest.1, (if cell = none then 1 else 0) + rest.2)

/-! ## Lemmas: byte splitting -/

theorem splitSepAux_append (sep : Byte) (x : List Byte) :
    ∀ acc r, splitSepAux sep (x ++ sep :: r) acc =
      splitSepAux sep x acc ++ splitSepAux sep r [] := by
  induction x with
  | nil => intro acc r; simp [splitSepAux]
  | cons b t ih =>
    intro acc r
    by_cases hb : b = sep <;> simp [splitSepAux, hb, ih]

theorem splitSepAux_sepFree (sep : Byte) (x : List Byte) :
    ∀ acc, sep ∉ x → splitSepAux sep x acc = [acc.reverse ++ x] := by
  induction x with
  | nil => intro acc _; simp [splitSepAux]
  | cons b t ih =>
    intro acc hx
    have hb : b ≠ sep := fun h => hx (h ▸ List.mem_cons_self b t)
    have ht : sep ∉ t := fun h => hx (List.mem_cons_of_mem b h)
    simp [splitSepAux, hb, ih _ ht]

theorem splitSep_sepFree (sep : Byte) (x : List Byte) (h : sep ∉ x) :
    splitSep sep x = [x] := by
  simp [splitSep, splitSepAux_sepFree sep x [] h]

theorem mem_splitSepAux_sepFree (sep : Byte) (x : List Byte) :
    ∀ acc, sep ∉ acc → ∀ c ∈ splitSepAux sep x acc, sep ∉ c := by
  induction x with
  | nil =>
    intro acc hacc c hc
    simp [splitSepAux] at hc
    subst hc
    simpa using hacc
  | cons b t ih =>
    intro acc hacc c hc
    by_cases hb : b = sep
    · simp [splitSepAux, hb] at hc
      rcases hc with hc | hc
      · subst hc; simpa using hacc
      · exact ih [] (by simp) c hc
    · simp [splitSepAux, hb] at hc
      refine ih (b :: acc) ?_ c hc
      intro hmem
      rcases List.mem_cons.mp hmem with h | h
      · exact hb h.symm
      · exact hacc h

theorem mem_splitSep_sepFree (sep : Byte) (x : List Byte) :
    ∀ c ∈ splitSep sep x, sep ∉ c :=
  mem_splitSepAux_sepFree sep x [] (by simp)

theorem splitSepAux_ne_nil (sep : Byte) (x : List Byte) :
    ∀ acc, splitSepAux sep x acc ≠ [] := by
  induction x with
  | nil => intro acc; simp [splitSepAux]
  | cons b t ih =>
    intro acc
    by_cases hb : b = sep <;> simp [splitSepAux, hb, ih]

theorem splitSepAux_exists_head (sep : Byte) (x : List Byte) :
    ∀ acc, ∃ c cs, splitSepAux sep x acc = (acc.reverse ++ c) :: cs := by
  induction x with
  | nil => intro acc; exact ⟨[], [], by simp [splitSepAux]⟩
  | cons b t ih =>
    intro acc
    by_cases hb : b = sep
    · exact ⟨[], splitSepAux sep t [], by simp [splitSepAux, hb]⟩
    · obtain ⟨c, cs, hc⟩ := ih (b :: acc)
      exact ⟨b :: c, cs, by simp [splitSepAux, hb, hc]⟩

theorem splitSep_cons_of_ne (sep b : Byte) (t : List Byte) (hb : b ≠ sep) :
    ∃ c cs, splitSep sep (b :: t) = (b :: c) :: cs := by
  obtain ⟨c, cs, hc⟩ := splitSepAux_exists_head sep t [b]
  exact ⟨c, cs, by simpa [splitSep, splitSepAux, hb] using hc⟩

theorem splitSep_recordsBytes (ls : List (List Byte))
    (h : ∀ l ∈ ls, (10 : Byte) ∉ l) :
    splitSep 10 (recordsBytes ls) = ls ++ [[]] := by
  induction ls with
  | nil => simp [recordsBytes, splitSep, splitSepAux]
  | cons l ls ih =>
    have hl : (10 : Byte) ∉ l := h l (List.mem_cons_self l ls)
    have hrest : ∀ x ∈ ls, (10 : Byte) ∉ x :=
      fun x hx => h x (List.mem_cons_of_mem l hx)
    have hsplit : recordsBytes (l :: ls) = l ++ 10 :: recordsBytes ls := by
      simp [recordsBytes]
    have ih2 := ih hrest
    rw [splitSep] at ih2
    rw [hsplit, splitSep, splitSepAux_append, splitSepAux_sepFree 10 l [] hl, ih2]
    simp

/-! ## Lemmas: history lines and dedup -/

theorem history_lines_recordsBytes (ls : List (List Byte))
    (hfree : ∀ l ∈ ls, (10 : Byte) ∉ l) (hne : ∀ l ∈ ls, l ≠ []) :
    history_lines_from_most_recent (recordsBytes ls) = ls.reverse := by
  rw [history_lines_from_most_recent, splitSep_recordsBytes ls hfree]
  rw [List.reverse_append, List.filter_append]
  have h1 : List.filter (fun l => decide (l ≠ [])) [([] : List Byte)].reverse = [] := by
    simp
  rw [h1, List.nil_append, List.filter_eq_self.mpr]
  intro a ha
  exact decide_eq_true (hne a (List.mem_reverse.mp ha))

theorem dedupFirstAux_sound (ls : List (List Byte)) :
    ∀ seen, (dedupFirstAux seen ls).Nodup ∧
      (∀ x ∈ dedupFirstAux seen ls, x ∉ seen ∧ x ∈ ls) ∧
      (∀ x ∈ ls, x ∉ seen → x ∈ dedupFirstAux seen ls) := by
  induction ls with
  | nil => intro seen; simp [dedupFirstAux]
  | cons l ls ih =>
    intro seen
    by_cases hl : l ∈ seen
    · obtain ⟨h1, h2, h3⟩ := ih seen
      refine ⟨by simpa [dedupFirstAux, hl] using h1, ?_, ?_⟩
      · intro x hx
        rw [dedupFirstAux, if_pos hl] at hx
        exact ⟨(h2 x hx).1, List.mem_cons_of_mem l (h2 x hx).2⟩
      · intro x hx hxs
        rcases List.mem_cons.mp hx with h | h
        · exact absurd (h ▸ hl) hxs
        · rw [dedupFirstAux, if_pos hl]
          exact h3 x h hxs
    · obtain ⟨h1, h2, h3⟩ := ih (l :: seen)
      rw [dedupFirstAux, if_neg hl]
      refine ⟨?_, ?_, ?_⟩
      · refine List.nodup_cons.mpr ⟨?_, h1⟩
        intro hmem
        exact (h2 l hmem).1 (List.mem_cons_self l seen)
      · intro x hx
        rcases List.mem_cons.mp hx with h | h
        · subst h; exact ⟨hl, List.mem_cons_self x ls⟩
        · obtain ⟨hns, hin⟩ := h2 x h
          exact ⟨fun hs => hns (List.mem_cons_of_mem l hs),
            List.mem_cons_of_mem l hin⟩
      · intro x hx hxs
        rcases List.mem_cons.mp hx with h | h
        · subst h; exact List.mem_cons_self x _
        · by_cases hxl : x = l
          · subst hxl; exact List.mem_cons_self x _
          · exact List.mem_cons_of_mem l
              (h3 x h (fun hm => (List.mem_cons.mp hm).elim hxl hxs))

theorem dedupFirst_nodup (ls : List (List Byte)) : (dedupFirst ls).Nodup :=
  (dedupFirstAux_sound ls []).1

theorem dedupFirst_subset (ls : List (List Byte)) :
    ∀ x ∈ dedupFirst ls, x ∈ ls :=
  fun x hx => ((dedupFirstAux_sound ls []).2.1 x hx).2

theorem history_lines_sepFree (bytes : List Byte) :
    ∀ l ∈ history_lines_from_most_recent bytes, (10 : Byte) ∉ l ∧ l ≠ [] := by
  intro l hl
  rw [history_lines_from_most_recent] at hl
  have hmem := (List.mem_filter.mp hl).1
  have hne : l ≠ [] := of_decide_eq_true (List.mem_filter.mp hl).2
  exact ⟨mem_splitSep_sepFree 10 bytes l (List.mem_reverse.mp hmem), hne⟩

theorem history_lines_replicate (n : Nat) (l : List Byte)
    (hfree : (10 : Byte) ∉ l) (hne : l ≠ []) :
    history_lines_from_most_recent (recordsBytes (List.replicate n l)) =
      List.replicate n l := by
  rw [history_lines_recordsBytes]
  · exact List.reverse_replicate n l
  · intro x hx; rw [List.eq_of_mem_replicate hx]; exact hfree
  · intro x hx; rw [List.eq_of_mem_replicate hx]; exact hne

/-! ## Claim C1 -/

/-- Claim C1: for every history log whose total record count exceeds the
cap of 1000, after `compact_history_file` completes the log contains at
most 500 records, all pairwise distinct, each of which is among the
most-recently-appended distinct values, written oldest-to-newest.  The
rewritten file, read newest-first, is exactly the first 500 entries of
the newest-first dedup of the old lines (so its physical order is
oldest-to-newest), it has at most 500 records, no duplicates, and every
record was a record of the old log. -/
theorem C1_compact_over_cap (bytes : List Byte)
    (h : MAX_HISTORY_LINES < (history_lines_from_most_recent bytes).length) :
    ∃ out, compact_history_file bytes = some out ∧
      history_lines_from_most_recent out =
        (dedupFirst (history_lines_from_most_recent bytes)).take
          (MAX_HISTORY_LINES / 2) ∧
      (history_lines_from_most_recent out).length ≤ MAX_HISTORY_LINES / 2 ∧
      (history_lines_from_most_recent out).Nodup ∧
      ∀ l ∈ history_lines_from_most_recent out,
        l ∈ history_lines_from_most_recent bytes := by
  have hc : compact_history_file bytes =
      some (recordsBytes
        (((dedupFirst (history_lines_from_most_recent bytes)).take
          (MAX_HISTORY_LINES / 2)).reverse)) := by
    rw [compact_history_file]
    simp only [if_neg (not_le.mpr h)]
  have hsub : ∀ x ∈ (dedupFirst (history_lines_from_most_recent bytes)).take
      (MAX_HISTORY_LINES / 2), x ∈ history_lines_from_most_recent bytes :=
    fun x hx => dedupFirst_subset _ x (List.take_subset _ _ hx)
  have hlout : history_lines_from_most_recent
      (recordsBytes
        (((dedupFirst (history_lines_from_most_recent bytes)).take
          (MAX_HISTORY_LINES / 2)).reverse)) =
      (dedupFirst (history_lines_from_most_recent bytes)).take
        (MAX_HISTORY_LINES / 2) := by
    rw [history_lines_recordsBytes]
    · exact List.reverse_reverse _
    · intro x hx
      exact (history_lines_sepFree bytes x (hsub x (List.mem_reverse.mp hx))).1
    · intro x hx
      exact (history_lines_sepFree bytes x (hsub x (List.mem_reverse.mp hx))).2
  refine ⟨_, hc, hlout, ?_, ?_, ?_⟩
  · rw [hlout]
    exact (List.length_take _ _).le.trans (Nat.min_le_left _ _)
  · rw [hlout]
    exact (dedupFirst_nodup _).sublist (List.take_sublist _ _)
  · intro l hl
    rw [hlout] at hl
    exact hsub l hl

/-- Witness for C1 at a concrete 1001-record log holding 1001 copies of
the record `a`. -/
theorem C1_compact_over_cap_witness :
    MAX_HISTORY_LINES <
      (history_lines_from_most_recent
        (recordsBytes (List.replicate 1001 [97]))).length ∧
    (∃ out, compact_history_file (recordsBytes (List.replicate 1001 [97])) =
        some out ∧
      history_lines_from_most_recent out =
        (dedupFirst (history_lines_from_most_recent
          (recordsBytes (List.replicate 1001 [97])))).take
          (MAX_HISTORY_LINES / 2) ∧
      (history_lines_from_most_recent out).length ≤ MAX_HISTORY_LINES / 2 ∧
      (history_lines_from_most_recent out).Nodup ∧
      ∀ l ∈ history_lines_from_most_recent out,
        l ∈ history_lines_from_most_recent
          (recordsBytes (List.replicate 1001 [97]))) := by
  have hyp : MAX_HISTORY_LINES <
      (history_lines_from_most_recent
        (recordsBytes (List.replicate 1001 [97]))).length := by
    rw [history_lines_replicate 1001 [97] (by decide) (by decide),
      List.length_replicate]
    decide
  exact ⟨hyp, C1_compact_over_cap _ hyp⟩

/-! ## Claim C3 -/

/-- Counterexample to claim C3: a log holding exactly 1000 records (1000
copies of `a`, so full of duplicates) has total record count equal to the
cap, yet `compact_history_file` short-circuits and performs no rewrite —
contradicting the claim that the dedup-truncate-rename rewrite happens
whenever the count is ≥ 1000. -/
theorem C3_compact_at_cap_counterexample :
    (history_lines_from_most_recent
      (recordsBytes (List.replicate 1000 [97]))).length = MAX_HISTORY_LINES ∧
    compact_history_file (recordsBytes (List.replicate 1000 [97])) = none := by
  have hl := history_lines_replicate 1000 [97] (by decide) (by decide)
  constructor
  · rw [hl, List.length_replicate, MAX_HISTORY_LINES]
  · simp only [compact_history_file, hl, List.length_replicate]
    exact if_pos (by decide)

/-- Claim C3 (amended): `compact_history_file` performs its rewrite
exactly when the total record count strictly exceeds the cap of 1000; at
a count of exactly 1000 (or less) it leaves the log untouched. -/
theorem C3_compact_trigger_iff (bytes : List Byte) :
    compact_history_file bytes = none ↔
      (history_lines_from_most_recent bytes).length ≤ MAX_HISTORY_LINES := by
  rw [compact_history_file]
  by_cases h : (history_lines_from_most_recent bytes).length ≤ MAX_HISTORY_LINES <;>
    simp [h]

/-! ## Lemmas: the merge feeder -/

theorem fd_loop_mem (fd : List (List Byte)) :
    ∀ seen, ∀ l ∈ fd_loop seen fd, l ∈ fd ∧ l ∉ seen := by
  induction fd with
  | nil => intro seen l hl; simp [fd_loop] at hl
  | cons x xs ih =>
    intro seen l hl
    by_cases hx : x ∈ seen
    · rw [fd_loop, if_pos hx] at hl
      exact ⟨List.mem_cons_of_mem x (ih seen l hl).1, (ih seen l hl).2⟩
    · rw [fd_loop, if_neg hx] at hl
      rcases List.mem_cons.mp hl with h | h
      · subst h; exact ⟨List.mem_cons_self l xs, hx⟩
      · exact ⟨List.mem_cons_of_mem x (ih seen l h).1, (ih seen l h).2⟩

theorem fd_loop_count (fd : List (List Byte)) :
    ∀ seen l, l ∉ seen → (fd_loop seen fd).count l = fd.count l := by
  induction fd with
  | nil => intro seen l _; rfl
  | cons x xs ih =>
    intro seen l hl
    by_cases hx : x ∈ seen
    · have hne : x ≠ l := fun h => hl (h ▸ hx)
      rw [fd_loop, if_pos hx, ih seen l hl, List.count_cons]
      simp [hne]
    · rw [fd_loop, if_neg hx, List.count_cons, List.count_cons, ih seen l hl]

theorem history_feed_sound (cwd : List Byte) (global : Bool)
    (ls : List (List Byte)) :
    ∀ seen,
      (history_feed cwd global seen ls).1.Nodup ∧
      (∀ x ∈ (history_feed cwd global seen ls).1, x ∉ seen) ∧
      (∀ x, x ∈ (history_feed cwd global seen ls).2 ↔
        x ∈ (history_feed cwd global seen ls).1 ∨ x ∈ seen) ∧
      (∀ l ∈ ls, ∀ rl, relativizeLine cwd global l = some rl →
        rl ∈ (history_feed cwd global seen ls).2) := by
  induction ls with
  | nil =>
    intro seen
    refine ⟨by simp [history_feed], by simp [history_feed], ?_, by simp⟩
    intro x
    simp [history_feed]
  | cons line ls ih =>
    intro seen
    match hrel : relativizeLine cwd global line with
    | none =>
      obtain ⟨h1, h2, h3, h4⟩ := ih seen
      have hstep : history_feed cwd global seen (line :: ls) =
          history_feed cwd global seen ls := by
        simp only [history_feed, hrel]
      rw [hstep]
      refine ⟨h1, h2, h3, ?_⟩
      intro l hl rl hrl
      rcases List.mem_cons.mp hl with h | h
      · subst h; rw [hrl] at hrel; cases hrel
      · exact h4 l h rl hrl
    | some rl =>
      by_cases hin : rl ∈ seen
      · obtain ⟨h1, h2, h3, h4⟩ := ih seen
        have hstep : history_feed cwd global seen (line :: ls) =
            history_feed cwd global seen ls := by
          simp only [history_feed, hrel, if_pos hin]
        rw [hstep]
        refine ⟨h1, h2, h3, ?_⟩
        intro l hl rl2 hrl2
        rcases List.mem_cons.mp hl with h | h
        · subst h
          have heq : rl = rl2 := by
            rw [hrel] at hrl2
            exact Option.some_inj.mp hrl2
          subst heq
          exact (h3 rl).mpr (Or.inr hin)
        · exact h4 l h rl2 hrl2
      · obtain ⟨h1, h2, h3, h4⟩ := ih (rl :: seen)
        have hstep : history_feed cwd global seen (line :: ls) =
            ((rl :: (history_feed cwd global (rl :: seen) ls).1),
              (history_feed cwd global (rl :: seen) ls).2) := by
          simp only [history_feed, hrel, if_neg hin]
        rw [hstep]
        refine ⟨?_, ?_, ?_, ?_⟩
        · refine List.nodup_cons.mpr ⟨?_, h1⟩
          intro hmem
          exact h2 rl hmem (List.mem_cons_self rl seen)
        · intro x hx
          rcases List.mem_cons.mp hx with h | h
          · subst h; exact hin
          · exact fun hs => h2 x h (List.mem_cons_of_mem rl hs)
        · intro x
          constructor
          · intro hx
            rcases (h3 x).mp hx with h | h
            · exact Or.inl (List.mem_cons_of_mem rl h)
            · rcases List.mem_cons.mp h with h | h
              · exact Or.inl (h ▸ List.mem_cons_self rl _)
              · exact Or.inr h
          · intro hx
            rcases hx with h | h
            · rcases List.mem_cons.mp h with h | h
              · exact (h3 x).mpr (Or.inr (h ▸ List.mem_cons_self rl seen))
              · exact (h3 x).mpr (Or.inl h)
            · exact (h3 x).mpr (Or.inr (List.mem_cons_of_mem rl h))
        · intro l hl rl2 hrl2
          rcases List.mem_cons.mp hl with h | h
          · subst h
            have heq : rl = rl2 := by
              rw [hrel] at hrl2
              exact Option.some_inj.mp hrl2
            subst heq
            exact (h3 rl).mpr (Or.inr (List.mem_cons_self rl seen))
          · exact h4 l h rl2 hrl2

theorem nodup_count_one (l : List (List Byte)) (a : List Byte)
    (h : l.Nodup) (ha : a ∈ l) : l.count a = 1 := by
  induction l with
  | nil => cases ha
  | cons x xs ih =>
    rcases List.mem_cons.mp ha with h1 | h1
    · subst h1
      rw [List.count_cons_self,
        List.count_eq_zero.mpr (List.nodup_cons.mp h).1]
    · have hne : a ≠ x := by
        rintro rfl
        exact (List.nodup_cons.mp h).1 h1
      rw [List.count_cons_of_ne hne]
      exact ih (List.nodup_cons.mp h).2 h1

/-! ## Claim C2 -/

/-- Counterexample to claim C2: with an empty history (so an empty seen
set) and a scanner that emits the line `a` twice, the merged feed
forwards `a` twice — the fd phase of `input_thread_inner` never inserts
into the seen set, so a repeated scanner line is not deduplicated,
contradicting “every newly emitted scan line is added to the seen set …
a line the scanner emits twice is forwarded at most once”. -/
theorem C2_fd_phase_counterexample :
    (input_thread_inner_feed [47, 104] false [] [[97], [97]]).count [97] = 2 := by
  decide

/-- Claim C2 (amended): in the live-scan phase every scanner line is
emitted iff its form is not in the seen set that the history phase
populated; the scan phase does not extend the set, so a line the scanner
emits repeatedly (and that history did not cover) is forwarded with its
full multiplicity. -/
theorem C2_fd_phase_amended (seen fd : List (List Byte)) :
    (∀ l ∈ fd_loop seen fd, l ∈ fd ∧ l ∉ seen) ∧
    (∀ l ∈ seen, l ∉ fd_loop seen fd) ∧
    (∀ l, l ∉ seen → (fd_loop seen fd).count l = fd.count l) :=
  ⟨fd_loop_mem fd seen,
    fun l hl hmem => (fd_loop_mem fd seen l hmem).2 hl,
    fun l hl => fd_loop_count fd seen l hl⟩

/-! ## Claim C5 -/

/-- Claim C5: a path `P` shown from history (its relativized form in the
current mode) that the live scanner also yields occurs exactly once in
the merged feed, and that occurrence is in the history-derived portion
(the fd phase suppresses it).  The feed is the sequence of path lines
handed to `write_path_to_fzf`. -/
theorem C5_history_portion_wins (cwd : List Byte) (global : Bool)
    (hist fd : List (List Byte)) (P : List Byte)
    (hP : ∃ l ∈ hist, relativizeLine cwd global l = some P) (_hfd : P ∈ fd) :
    (input_thread_inner_feed cwd global hist fd).count P = 1 ∧
    P ∈ (history_feed cwd global [] hist).1 ∧
    P ∉ fd_loop (history_feed cwd global [] hist).2 fd := by
  obtain ⟨l, hl, hrl⟩ := hP
  obtain ⟨h1, _h2, h3, h4⟩ := history_feed_sound cwd global hist ([])
  have hseen : P ∈ (history_feed cwd global [] hist).2 := h4 l hl P hrl
  have hemit : P ∈ (history_feed cwd global [] hist).1 := by
    rcases (h3 P).mp hseen with h | h
    · exact h
    · simp at h
  have hnotfd : P ∉ fd_loop (history_feed cwd global [] hist).2 fd :=
    fun hmem => (fd_loop_mem fd _ P hmem).2 hseen
  refine ⟨?_, hemit, hnotfd⟩
  rw [input_thread_inner_feed, List.count_append,
    nodup_count_one _ _ h1 hemit,
    List.count_eq_zero.mpr hnotfd]

/-- Witness for C5: history `["/h/x"]`, cwd `/h`, local mode, scanner
also yields `x`; the merged feed shows `x` exactly once, from history. -/
theorem C5_history_portion_wins_witness :
    (∃ l ∈ [[47, 104, 47, 120]],
      relativizeLine [47, 104] false l = some [120]) ∧
    ([120] ∈ [[120]] : Prop) ∧
    ((input_thread_inner_feed [47, 104] false [[47, 104, 47, 120]]
        [[120]]).count [120] = 1 ∧
      [120] ∈ (history_feed [47, 104] false [] [[47, 104, 47, 120]]).1 ∧
      [120] ∉ fd_loop (history_feed [47, 104] false [] [[47, 104, 47, 120]]).2
        [[120]]) :=
  ⟨by decide, by decide,
    C5_history_portion_wins [47, 104] false [[47, 104, 47, 120]] [[120]] [120]
      (by decide) (by decide)⟩

/-! ## Claim C10 -/

theorem file_history_reads_filled (b : List Byte) (ds : List (List Byte)) :
    file_history_reads (some b) ds = (List.replicate ds.length b, 0) := by
  induction ds with
  | nil => rfl
  | cons d ds ih =>
    simp only [file_history_reads, file_history_bytes, ih, List.length_cons]
    exact Prod.ext (List.replicate_succ b ds.length).symm rfl

/-- Claim C10: within one process the history file's bytes are read from
disk at most once and cached; every later call observes the same byte
snapshot.  With the cell initially empty and `d :: ds` the on-disk bytes
at each call time (later appends may have changed `ds` arbitrarily),
exactly one disk read happens and every call returns `d`, so every
iteration of history lines — feeder runs and the compactor alike — sees
the lines of the first snapshot and never a record appended later. -/
theorem C10_file_history_bytes_cached (d : List Byte) (ds : List (List Byte)) :
    file_history_reads none (d :: ds) = (List.replicate (ds.length + 1) d, 1) ∧
    ∀ v ∈ (file_history_reads none (d :: ds)).1,
      history_lines_from_most_recent v = history_lines_from_most_recent d := by
  have hmain : file_history_reads none (d :: ds) =
      (List.replicate (ds.length + 1) d, 1) := by
    simp [file_history_reads, file_history_bytes, file_history_reads_filled,
      List.replicate_succ]
  refine ⟨hmain, ?_⟩
  intro v hv
  rw [hmain] at hv
  rw [List.eq_of_mem_replicate hv]

/-! ## Lemmas: the finder loop -/

theorem splitSep_get0 (sep : Byte) (x : List Byte) :
    ∃ c, (splitSep sep x).get? 0 = some c := by
  match x with
  | [] => exact ⟨[], rfl⟩
  | b :: t =>
    by_cases hb : b = sep
    · subst hb
      exact ⟨[], by simp [splitSep, splitSepAux]⟩
    · obtain ⟨c, cs, hc⟩ := splitSep_cons_of_ne sep b t hb
      exact ⟨b :: c, by rw [hc]; rfl⟩

theorem run_finder_loop_invocations_head (home cwd : List Byte)
    (noNewline : Bool) (m : Nat) (pq : List Byte) (rs : List FzfResult)
    (hm : m < 2) :
    ∃ t, (run_finder_loop home cwd noNewline m pq rs).invocations =
      (m, pq) :: t := by
  have hmode : ∃ mo, modeOf m = some mo := by
    interval_cases m
    · exact ⟨_, rfl⟩
    · exact ⟨_, rfl⟩
  obtain ⟨mo, hmo⟩ := hmode
  match rs with
  | [] => exact ⟨[], rfl⟩
  | r :: rs =>
    obtain ⟨q, hq⟩ := splitSep_get0 10 r.stdout
    rw [List.get?_eq_getElem?] at hq
    rcases h1 : (splitSep 10 r.stdout)[1]? with _ | key <;>
      rcases h2 : (splitSep 10 r.stdout)[2]? with _ | sel
    · exact ⟨[], by simp [run_finder_loop, hmo, hq, h1, h2]⟩
    · exact ⟨[], by simp [run_finder_loop, hmo, hq, h1, h2]⟩
    · exact ⟨[], by simp [run_finder_loop, hmo, hq, h1, h2]⟩
    · by_cases hkey : key = []
      · subst hkey
        by_cases hs : r.success = false
        · exact ⟨[], by simp [run_finder_loop, hmo, hq, h1, h2, hs]⟩
        · rcases hadd : add_path_to_history cwd (expand_selection home sel)
            with _ | rec_bytes
          · exact ⟨[], by
              simp [run_finder_loop, hmo, hq, h1, h2, hs, hadd]⟩
          · exact ⟨[], by
              simp [run_finder_loop, hmo, hq, h1, h2, hs, hadd]⟩
      · by_cases hct : key = ctrlT
        · subst hct
          refine ⟨(run_finder_loop home cwd noNewline
            ((m + 1) % 2) q rs).invocations, ?_⟩
          simp [run_finder_loop, hmo, hq, h1, h2, hkey]
        · exact ⟨[], by
            simp [run_finder_loop, hmo, hq, h1, h2, hkey, hct]⟩

/-! ## Claim C6 -/

/-- Claim C6: whenever the selector's output has an empty key field (the
accept case) and its exit status is a failure, `run_finder_loop` calls
`std::process::exit` with exactly the selector's exit code
(`code().unwrap_or(1)`), appending nothing to history and printing
nothing.  `m < 2` covers both reachable modes, `sel` is the (possibly
empty) selection field that must be present for the `expect` at line 368
not to panic. -/
theorem C6_failure_exit_propagated (home cwd : List Byte) (noNewline : Bool)
    (m : Nat) (pq : List Byte) (r : FzfResult) (rs : List FzfResult)
    (sel : List Byte) (hm : m < 2)
    (hkey : (splitSep 10 r.stdout).get? 1 = some [])
    (hsel : (splitSep 10 r.stdout).get? 2 = some sel)
    (hfail : r.success = false) :
    run_finder_loop home cwd noNewline m pq (r :: rs) =
      ⟨.exited (r.code.getD 1), [], [], [(m, pq)]⟩ := by
  have hmode : ∃ mo, modeOf m = some mo := by
    interval_cases m
    · exact ⟨_, rfl⟩
    · exact ⟨_, rfl⟩
  obtain ⟨mo, hmo⟩ := hmode
  obtain ⟨q, hq⟩ := splitSep_get0 10 r.stdout
  rw [List.get?_eq_getElem?] at hq
  rw [List.get?_eq_getElem?] at hkey
  rw [List.get?_eq_getElem?] at hsel
  simp [run_finder_loop, hmo, hq, hkey, hsel, hfail]

/-- Witness for C6: a no-match run (`fzf` prints `q\n\n\n`, exits 2); the
process exits with code 2, and nothing is appended or printed. -/
theorem C6_failure_exit_propagated_witness :
    (0 < 2 ∧
      (splitSep 10 (FzfResult.mk false (some 2) [113, 10, 10, 10]).stdout).get? 1 =
        some [] ∧
      (splitSep 10 (FzfResult.mk false (some 2) [113, 10, 10, 10]).stdout).get? 2 =
        some [] ∧
      (FzfResult.mk false (some 2) [113, 10, 10, 10]).success = false) ∧
    run_finder_loop [47, 104] [47, 99] false 0 []
        [FzfResult.mk false (some 2) [113, 10, 10, 10]] =
      ⟨.exited ((FzfResult.mk false (some 2) [113, 10, 10, 10]).code.getD 1),
        [], [], [(0, [])]⟩ :=
  ⟨⟨by decide, by decide, by decide, by decide⟩,
    C6_failure_exit_propagated [47, 104] [47, 99] false 0 []
      (FzfResult.mk false (some 2) [113, 10, 10, 10]) [] []
      (by decide) (by decide) (by decide) (by decide)⟩

/-! ## Claim C7 -/

/-- Counterexample to claim C7: on the no-match path the finder loop
calls `std::process::exit` directly (line 383), so the process ends
without ever joining the compactor thread; here the compactor failed
(`compactorOk = false`), yet the process exits with fzf's code 1 and the
compactor result is dropped — refuting “on every execution path … both
joined … failing exit status if either failed”. -/
theorem C7_exit_path_skips_join_counterexample :
    founder_main
      (run_finder_loop [47, 104] [47, 99] false 0 []
        [FzfResult.mk false (some 1) [113, 10, 10, 10]]) false =
      ProcessEnd.exited 1 false ∧
    (founder_main
      (run_finder_loop [47, 104] [47, 99] false 0 []
        [FzfResult.mk false (some 1) [113, 10, 10, 10]])
        false).joinedCompactor = false := by
  constructor
  · decide
  · decide

/-- Claim C7 (amended): on every execution path on which the finder flow
returns normally (an accepted selection, or an error propagated as a
`Result`), the compactor result is joined before the process ends and
the process reports success only when both the main flow and the
compaction succeeded.  The no-match/abort path (`std::process::exit`)
ends the process without the join. -/
theorem C7_join_on_normal_return (cmd : RunResult) (compactorOk : Bool)
    (h : cmd.exit = ExitKind.normalOk ∨ cmd.exit = ExitKind.normalErr) :
    (founder_main cmd compactorOk).joinedCompactor = true ∧
    founder_main cmd compactorOk =
      ProcessEnd.finished
        (decide (cmd.exit = ExitKind.normalOk) && compactorOk) true := by
  rcases h with h | h <;>
    simp [founder_main, h, ProcessEnd.joinedCompactor]

/-- Witness for C7 (amended): a successful selection with a failed
compaction is joined and reported as an overall failure. -/
theorem C7_join_on_normal_return_witness :
    (RunResult.mk ExitKind.normalOk [] [] []).exit = ExitKind.normalOk ∧
    ((founder_main (RunResult.mk ExitKind.normalOk [] [] [])
        false).joinedCompactor = true ∧
      founder_main (RunResult.mk ExitKind.normalOk [] [] []) false =
        ProcessEnd.finished
          (decide ((RunResult.mk ExitKind.normalOk [] [] []).exit =
            ExitKind.normalOk) && false) true) :=
  ⟨rfl, C7_join_on_normal_return (RunResult.mk ExitKind.normalOk [] [] [])
    false (Or.inl rfl)⟩

/-! ## Claim C8 -/

/-- Claim C8: starting in the `local` mode (mode number 0), one `ctrl-t`
press re-invokes the finder in mode 1 — `everything`, whose `Mode` asks
fd for hidden files — carrying the echoed query `q1` forward; a second
press returns to mode 0 (`local`) with the new echoed query, so the mode
cycle has length exactly 2. -/
theorem C8_mode_cycle (home cwd : List Byte) (noNewline : Bool)
    (pq : List Byte) (r1 r2 : FzfResult) (rs : List FzfResult)
    (q1 s1 q2 s2 : List Byte)
    (hq1 : (splitSep 10 r1.stdout).get? 0 = some q1)
    (hk1 : (splitSep 10 r1.stdout).get? 1 = some ctrlT)
    (hs1 : (splitSep 10 r1.stdout).get? 2 = some s1)
    (hq2 : (splitSep 10 r2.stdout).get? 0 = some q2)
    (hk2 : (splitSep 10 r2.stdout).get? 1 = some ctrlT)
    (hs2 : (splitSep 10 r2.stdout).get? 2 = some s2) :
    (∃ t, (run_finder_loop home cwd noNewline 0 pq
        (r1 :: r2 :: rs)).invocations = (0, pq) :: (1, q1) :: (0, q2) :: t) ∧
    modeOf 0 = some ⟨false, false, [108, 111, 99, 97, 108]⟩ ∧
    modeOf 1 = some ⟨true, true,
      [101, 118, 101, 114, 121, 116, 104, 105, 110, 103]⟩ := by
  refine ⟨?_, rfl, rfl⟩
  have hct : ctrlT ≠ ([] : List Byte) := by decide
  have step1 : run_finder_loop home cwd noNewline 0 pq (r1 :: r2 :: rs) =
      ⟨(run_finder_loop home cwd noNewline 1 q1 (r2 :: rs)).exit,
        (run_finder_loop home cwd noNewline 1 q1 (r2 :: rs)).appended,
        (run_finder_loop home cwd noNewline 1 q1 (r2 :: rs)).printed,
        (0, pq) ::
          (run_finder_loop home cwd noNewline 1 q1 (r2 :: rs)).invocations⟩ := by
    rw [List.get?_eq_getElem?] at hq1
    rw [List.get?_eq_getElem?] at hk1
    rw [List.get?_eq_getElem?] at hs1
    simp [run_finder_loop, modeOf, hq1, hk1, hs1, hct]
  have step2 : run_finder_loop home cwd noNewline 1 q1 (r2 :: rs) =
      ⟨(run_finder_loop home cwd noNewline 0 q2 rs).exit,
        (run_finder_loop home cwd noNewline 0 q2 rs).appended,
        (run_finder_loop home cwd noNewline 0 q2 rs).printed,
        (1, q1) ::
          (run_finder_loop home cwd noNewline 0 q2 rs).invocations⟩ := by
    rw [List.get?_eq_getElem?] at hq2
    rw [List.get?_eq_getElem?] at hk2
    rw [List.get?_eq_getElem?] at hs2
    simp [run_finder_loop, modeOf, hq2, hk2, hs2, hct]
  obtain ⟨t, ht⟩ := run_finder_loop_invocations_head home cwd noNewline 0 q2 rs
    (by decide)
  exact ⟨t, by rw [step1, step2]; simp [ht]⟩

/-- Witness for C8: two concrete `ctrl-t` results (echoed queries `a`
then `b`). -/
theorem C8_mode_cycle_witness :
    ((splitSep 10 (FzfResult.mk true (some 0)
        ([97, 10] ++ ctrlT ++ [10, 120, 10])).stdout).get? 0 = some [97] ∧
      (splitSep 10 (FzfResult.mk true (some 0)
        ([97, 10] ++ ctrlT ++ [10, 120, 10])).stdout).get? 1 = some ctrlT ∧
      (splitSep 10 (FzfResult.mk true (some 0)
        ([97, 10] ++ ctrlT ++ [10, 120, 10])).stdout).get? 2 = some [120] ∧
      (splitSep 10 (FzfResult.mk true (some 0)
        ([98, 10] ++ ctrlT ++ [10, 121, 10])).stdout).get? 0 = some [98] ∧
      (splitSep 10 (FzfResult.mk true (some 0)
        ([98, 10] ++ ctrlT ++ [10, 121, 10])).stdout).get? 1 = some ctrlT ∧
      (splitSep 10 (FzfResult.mk true (some 0)
        ([98, 10] ++ ctrlT ++ [10, 121, 10])).stdout).get? 2 = some [121]) ∧
    ((∃ t, (run_finder_loop [47, 104] [47, 99] false 0 []
        [FzfResult.mk true (some 0) ([97, 10] ++ ctrlT ++ [10, 120, 10]),
          FzfResult.mk true (some 0)
            ([98, 10] ++ ctrlT ++ [10, 121, 10])]).invocations =
        (0, []) :: (1, [97]) :: (0, [98]) :: t) ∧
      modeOf 0 = some ⟨false, false, [108, 111, 99, 97, 108]⟩ ∧
      modeOf 1 = some ⟨true, true,
        [101, 118, 101, 114, 121, 116, 104, 105, 110, 103]⟩) :=
  ⟨⟨by decide, by decide, by decide, by decide, by decide, by decide⟩,
    C8_mode_cycle [47, 104] [47, 99] false []
      (FzfResult.mk true (some 0) ([97, 10] ++ ctrlT ++ [10, 120, 10]))
      (FzfResult.mk true (some 0) ([98, 10] ++ ctrlT ++ [10, 121, 10]))
      [] [97] [120] [98] [121]
      (by decide) (by decide) (by decide) (by decide) (by decide) (by decide)⟩

/-! ## Lemmas: path chunks and components -/

theorem chunks_ne_nil (p : List Byte) : chunks p ≠ [] :=
  splitSepAux_ne_nil 47 p []

theorem chunks_sepFree (p : List Byte) : ∀ c ∈ chunks p, (47 : Byte) ∉ c :=
  mem_splitSep_sepFree 47 p

theorem chunks_append (x r : List Byte) :
    chunks (x ++ 47 :: r) = chunks x ++ chunks r :=
  splitSepAux_append 47 x [] r

theorem chunks_of_sepFree (x : List Byte) (h : (47 : Byte) ∉ x) :
    chunks x = [x] :=
  splitSep_sepFree 47 x h

theorem map_fst_bodyCompsR (cs : List (List Byte)) :
    (bodyCompsR cs).map Prod.fst = bodyComps cs := by
  induction cs with
  | nil => rfl
  | cons c cs ih =>
    by_cases hc : junkChunk c = true
    · have h1 : bodyCompsR (c :: cs) = bodyCompsR cs := by
        simp [bodyCompsR, hc]
      have h2 : bodyComps (c :: cs) = bodyComps cs := by
        simp [bodyComps, List.filterMap_cons, hc]
      rw [h1, h2, ih]
    · have h1 : bodyCompsR (c :: cs) = (compOf c, cs) :: bodyCompsR cs := by
        simp [bodyCompsR, hc]
      have h2 : bodyComps (c :: cs) = compOf c :: bodyComps cs := by
        simp [bodyComps, List.filterMap_cons, hc]
      rw [h1, List.map_cons, h2, ih]

theorem bodyComps_append (a b : List (List Byte)) :
    bodyComps (a ++ b) = bodyComps a ++ bodyComps b :=
  List.filterMap_append a b _

theorem bodyComps_dropWhile (cs : List (List Byte)) :
    bodyComps (cs.dropWhile junkChunk) = bodyComps cs := by
  induction cs with
  | nil => rfl
  | cons c cs ih =>
    by_cases hc : junkChunk c = true
    · have h2 : bodyComps (c :: cs) = bodyComps cs := by
        simp [bodyComps, List.filterMap_cons, hc]
      rw [List.dropWhile_cons_of_pos hc, ih, h2]
    · rw [List.dropWhile_cons_of_neg (by simpa using hc)]

theorem bodyComps_reverse (cs : List (List Byte)) :
    bodyComps cs.reverse = (bodyComps cs).reverse :=
  List.filterMap_reverse _ cs

theorem bodyComps_trimFront (cs : List (List Byte)) :
    bodyComps (trimFrontChunks cs) = bodyComps cs :=
  bodyComps_dropWhile cs

theorem bodyComps_trimBack (cs : List (List Byte)) :
    bodyComps (trimBackChunks cs) = bodyComps cs := by
  rw [trimBackChunks, bodyComps_reverse, bodyComps_dropWhile, bodyComps_reverse,
    List.reverse_reverse]

theorem dropWhile_junk_idem (cs : List (List Byte)) :
    (cs.dropWhile junkChunk).dropWhile junkChunk = cs.dropWhile junkChunk := by
  induction cs with
  | nil => rfl
  | cons c cs ih =>
    by_cases hc : junkChunk c = true
    · rw [List.dropWhile_cons_of_pos hc, ih]
    · rw [List.dropWhile_cons_of_neg (by simpa using hc),
        List.dropWhile_cons_of_neg (by simpa using hc)]

theorem trimFront_idem (cs : List (List Byte)) :
    trimFrontChunks (trimFrontChunks cs) = trimFrontChunks cs :=
  dropWhile_junk_idem cs

theorem trimBack_idem (cs : List (List Byte)) :
    trimBackChunks (trimBackChunks cs) = trimBackChunks cs := by
  rw [trimBackChunks, trimBackChunks, List.reverse_reverse, dropWhile_junk_idem]

theorem trimBack_isPre (cs : List (List Byte)) : trimBackChunks cs <+: cs := by
  have h1 : cs.reverse.dropWhile junkChunk <:+ cs.reverse :=
    List.dropWhile_suffix junkChunk
  have h2 := List.reverse_prefix.mpr h1
  rwa [List.reverse_reverse] at h2

theorem dropWhile_fixed_of_head (cs : List (List Byte))
    (h : ∀ c, cs.head? = some c → junkChunk c = false) :
    cs.dropWhile junkChunk = cs := by
  match cs with
  | [] => rfl
  | c :: t =>
    have := h c rfl
    rw [List.dropWhile_cons_of_neg (by simp [this])]

theorem head_dropWhile_junk (cs : List (List Byte)) :
    ∀ c, (cs.dropWhile junkChunk).head? = some c → junkChunk c = false := by
  induction cs with
  | nil => intro c h; cases h
  | cons x xs ih =>
    intro c h
    by_cases hx : junkChunk x = true
    · rw [List.dropWhile_cons_of_pos hx] at h
      exact ih c h
    · rw [List.dropWhile_cons_of_neg (by simpa using hx)] at h
      cases h
      simpa using hx

theorem trimFront_trimBack_trimFront (cs : List (List Byte)) :
    trimFrontChunks (trimBackChunks (trimFrontChunks cs)) =
      trimBackChunks (trimFrontChunks cs) := by
  apply dropWhile_fixed_of_head
  intro c hc
  have hpre := trimBack_isPre (trimFrontChunks cs)
  obtain ⟨t, ht⟩ := hpre
  have hne : trimBackChunks (trimFrontChunks cs) ≠ [] := by
    intro h
    rw [h] at hc
    cases hc
  obtain ⟨a, z, ha⟩ := List.exists_cons_of_ne_nil hne
  rw [ha] at hc
  cases hc
  have hhead : (trimFrontChunks cs).head? = some c := by
    rw [← ht, ha]
    rfl
  exact head_dropWhile_junk cs c hhead

/-- The canonical form produced by `stripPrefixBytes` is a fixed point of
both trims. -/
theorem trims_canon (cs : List (List Byte)) :
    trimFrontChunks (trimBackChunks (trimFrontChunks cs)) =
        trimBackChunks (trimFrontChunks cs) ∧
      trimBackChunks (trimBackChunks (trimFrontChunks cs)) =
        trimBackChunks (trimFrontChunks cs) :=
  ⟨trimFront_trimBack_trimFront cs, trimBack_idem _⟩

theorem bodyCompsR_get_drop (cs : List (List Byte)) :
    ∀ k pr, (bodyCompsR cs).get? k = some pr →
      (bodyCompsR cs).drop (k + 1) = bodyCompsR pr.2 := by
  induction cs with
  | nil => intro k pr h; cases h
  | cons c cs ih =>
    intro k pr h
    by_cases hc : junkChunk c = true
    · have h1 : bodyCompsR (c :: cs) = bodyCompsR cs := by
        simp [bodyCompsR, hc]
      rw [h1] at h ⊢
      exact ih k pr h
    · have h1 : bodyCompsR (c :: cs) = (compOf c, cs) :: bodyCompsR cs := by
        simp [bodyCompsR, hc]
      rw [h1] at h ⊢
      match k with
      | 0 =>
        cases h
        rfl
      | k + 1 =>
        exact ih k pr h

theorem compsRests_get_drop (p : List Byte) :
    ∀ k pr, (compsRests p).get? k = some pr →
      (compsRests p).drop (k + 1) = bodyCompsR pr.2 := by
  intro k pr h
  rw [compsRests] at h ⊢
  by_cases hr : p.head? = some 47
  · rw [if_pos hr] at h ⊢
    match k with
    | 0 =>
      cases h
      rfl
    | k + 1 =>
      exact bodyCompsR_get_drop _ k pr h
  · rw [if_neg hr] at h ⊢
    match hck : chunks p with
    | [] =>
      rw [hck] at h
      cases h
    | c :: cs =>
      simp only [hck] at h ⊢
      by_cases hc : c = [46]
      · rw [if_pos hc] at h ⊢
        match k with
        | 0 =>
          cases h
          rfl
        | k + 1 =>
          exact bodyCompsR_get_drop _ k pr h
      · rw [if_neg hc] at h ⊢
        exact bodyCompsR_get_drop _ k pr h

theorem bodyCompsR_rest_mem (cs : List (List Byte)) :
    ∀ pr ∈ bodyCompsR cs, ∀ c ∈ pr.2, c ∈ cs := by
  induction cs with
  | nil => intro pr h; cases h
  | cons x xs ih =>
    intro pr hpr c hc
    by_cases hx : junkChunk x = true
    · have h1 : bodyCompsR (x :: xs) = bodyCompsR xs := by
        simp [bodyCompsR, hx]
      rw [h1] at hpr
      exact List.mem_cons_of_mem x (ih pr hpr c hc)
    · have h1 : bodyCompsR (x :: xs) = (compOf x, xs) :: bodyCompsR xs := by
        simp [bodyCompsR, hx]
      rw [h1] at hpr
      rcases List.mem_cons.mp hpr with h | h
      · subst h
        exact List.mem_cons_of_mem x hc
      · exact List.mem_cons_of_mem x (ih pr h c hc)

theorem compsRests_rest_sepFree (p : List Byte) :
    ∀ pr ∈ compsRests p, ∀ c ∈ pr.2, (47 : Byte) ∉ c := by
  intro pr hpr c hc
  rw [compsRests] at hpr
  by_cases hr : p.head? = some 47
  · rw [if_pos hr] at hpr
    rcases List.mem_cons.mp hpr with h | h
    · subst h
      exact chunks_sepFree (p.drop 1) c hc
    · exact chunks_sepFree (p.drop 1) c (bodyCompsR_rest_mem _ pr h c hc)
  · rw [if_neg hr] at hpr
    match hck : chunks p with
    | [] =>
      rw [hck] at hpr
      cases hpr
    | x :: xs =>
      simp only [hck] at hpr
      have hmem : ∀ y ∈ x :: xs, (47 : Byte) ∉ y := by
        intro y hy
        exact chunks_sepFree p y (hck ▸ hy)
      by_cases hx : x = [46]
      · rw [if_pos hx] at hpr
        rcases List.mem_cons.mp hpr with h | h
        · subst h
          exact hmem c (List.mem_cons_of_mem x hc)
        · exact hmem c (List.mem_cons_of_mem x (bodyCompsR_rest_mem xs pr h c hc))
      · rw [if_neg hx] at hpr
        exact hmem c (bodyCompsR_rest_mem _ pr hpr c hc)

theorem rejoin_chunks (cs : List (List Byte)) (hne : cs ≠ [])
    (hfree : ∀ c ∈ cs, (47 : Byte) ∉ c) : chunks (rejoin 47 cs) = cs := by
  induction cs with
  | nil => cases hne rfl
  | cons c cs ih =>
    match cs with
    | [] =>
      rw [show rejoin 47 [c] = c from rfl]
      exact chunks_of_sepFree c (hfree c (List.mem_cons_self c []))
    | d :: ds =>
      have h1 : rejoin 47 (c :: d :: ds) = c ++ 47 :: rejoin 47 (d :: ds) := rfl
      rw [h1, chunks_append,
        chunks_of_sepFree c (hfree c (List.mem_cons_self c _)),
        ih (by simp) (fun y hy => hfree y (List.mem_cons_of_mem c hy))]
      rfl

theorem components_root (p : List Byte) (h : p.head? = some 47) :
    components p = .rootDir :: bodyComps (chunks (p.drop 1)) := by
  rw [components, compsRests, if_pos h, List.map_cons, map_fst_bodyCompsR]

theorem components_curdir (p : List Byte) (h : ¬p.head? = some 47)
    (cs : List (List Byte)) (hck : chunks p = [46] :: cs) :
    components p = .curDir :: bodyComps cs := by
  rw [components, compsRests, if_neg h]
  simp [hck, map_fst_bodyCompsR]

theorem components_body (p : List Byte) (h : ¬p.head? = some 47)
    (c : List Byte) (cs : List (List Byte)) (hck : chunks p = c :: cs)
    (hc : c ≠ [46]) : components p = bodyComps (c :: cs) := by
  rw [components, compsRests, if_neg h]
  simp [hck, hc, map_fst_bodyCompsR]

theorem components_ne_nil (p : List Byte) (h : p ≠ []) : components p ≠ [] := by
  match p with
  | b :: t =>
    by_cases hb : b = 47
    · subst hb
      rw [components_root (47 :: t) rfl]
      exact List.cons_ne_nil _ _
    · obtain ⟨c, cs, hck⟩ := splitSep_cons_of_ne 47 b t hb
      have hhead : ¬(b :: t).head? = some 47 := by
        simpa using hb
      by_cases hbc : b :: c = [46]
      · rw [components_curdir (b :: t) hhead cs (by rw [← hbc]; exact hck)]
        exact List.cons_ne_nil _ _
      · rw [components_body (b :: t) hhead (b :: c) cs hck hbc]
        have hjunk : junkChunk (b :: c) = false := by
          simp [junkChunk, hbc]
        simp [bodyComps, List.filterMap_cons, hjunk]

theorem components_append (a b : List Byte) (ha : a ≠ []) :
    components (a ++ 47 :: b) = components a ++ bodyComps (chunks b) := by
  match a with
  | x :: t =>
    by_cases hx : x = 47
    · subst hx
      have h1 : ((47 :: t) ++ 47 :: b).head? = some 47 := rfl
      rw [components_root _ h1, components_root (47 :: t) rfl]
      have h2 : ((47 :: t) ++ 47 :: b).drop 1 = t ++ 47 :: b := rfl
      rw [h2, chunks_append, bodyComps_append]
      rfl
    · have hhead : ¬((x :: t) ++ 47 :: b).head? = some 47 := by
        simpa using hx
      have hheada : ¬(x :: t).head? = some 47 := by
        simpa using hx
      obtain ⟨c, cs, hck0⟩ := splitSep_cons_of_ne 47 x t hx
      have hck : chunks (x :: t) = (x :: c) :: cs := hck0
      have hckapp : chunks ((x :: t) ++ 47 :: b) = (x :: c) :: (cs ++ chunks b) := by
        have := chunks_append (x :: t) b
        rw [hck] at this
        simpa using this
      by_cases hbc : x :: c = [46]
      · rw [components_curdir _ hhead (cs ++ chunks b) (by rw [← hbc]; exact hckapp),
          components_curdir (x :: t) hheada cs (by rw [← hbc]; exact hck),
          bodyComps_append]
        rfl
      · rw [components_body _ hhead (x :: c) (cs ++ chunks b) hckapp hbc,
          components_body (x :: t) hheada (x :: c) cs hck hbc]
        have h3 : (x :: c) :: (cs ++ chunks b) = ((x :: c) :: cs) ++ chunks b := rfl
        rw [h3, bodyComps_append]

theorem trims_subset (cs : List (List Byte)) :
    ∀ c ∈ trimBackChunks (trimFrontChunks cs), c ∈ cs := by
  intro c hc
  have h1 := (trimBack_isPre (trimFrontChunks cs)).subset hc
  exact (List.dropWhile_suffix junkChunk).subset h1

/-- Consuming the components of `base` from a path that starts with it:
the decomposition `compsRests` entry at position `|components base| - 1`
carries the remaining chunks, `components p` splits accordingly, and
`stripPrefixBytes` rebuilds exactly the trimmed remaining chunks. -/
theorem startsWith_decomp (base p : List Byte) (hb : base ≠ [])
    (hs : startsWith base p = true) :
    ∃ k pr, (components base).length = k + 1 ∧
      (compsRests p).get? k = some pr ∧
      components p = components base ++ bodyComps pr.2 ∧
      stripPrefixBytes base p =
        rejoin 47 (trimBackChunks (trimFrontChunks pr.2)) := by
  have hpre : components base <+: components p := of_decide_eq_true hs
  have hlen : (components base).length ≤ (components p).length := hpre.length_le
  match hcb : (components base).length with
  | 0 => exact absurd (List.length_eq_zero.mp hcb) (components_ne_nil base hb)
  | k + 1 =>
    have hcb2 : (components base).length = k + 1 := hcb
    have hk : k < (compsRests p).length := by
      have h1 : (components p).length = (compsRests p).length := by
        rw [components, List.length_map]
      omega
    have hget : (compsRests p).get? k = some ((compsRests p).get ⟨k, hk⟩) :=
      List.get?_eq_get hk
    set pr := (compsRests p).get ⟨k, hk⟩ with hpr
    have hdrop := compsRests_get_drop p k pr hget
    have h1 : components base = (components p).take (k + 1) := by
      rw [← hcb2]
      exact List.prefix_iff_eq_take.mp hpre
    have h2 : (components p).drop (k + 1) = bodyComps pr.2 := by
      rw [components, ← List.map_drop, hdrop, map_fst_bodyCompsR]
    have h3 : components p = components base ++ bodyComps pr.2 := by
      conv_lhs => rw [← List.take_append_drop (k + 1) (components p)]
      rw [← h1, h2]
    have h4 : stripPrefixBytes base p =
        rejoin 47 (trimBackChunks (trimFrontChunks pr.2)) := by
      simp only [stripPrefixBytes, hcb2, hget]
    exact ⟨k, pr, rfl, hget, h3, h4⟩

/-- `expand_selection` on a `~/`-prefixed display line substitutes the
home directory and a separator in front of the (re-trimmed) rest. -/
theorem expand_tilde (home r : List Byte) :
    expand_selection home (126 :: 47 :: r) =
      home ++ 47 :: rejoin 47 (trimBackChunks (trimFrontChunks (chunks r))) := by
  have hchunks : chunks (126 :: 47 :: r) = [126] :: chunks r := by
    have h0 : (126 : Byte) :: 47 :: r = [126] ++ 47 :: r := rfl
    rw [h0, chunks_append, chunks_of_sepFree [126] (by decide)]
    rfl
  have hcr : compsRests (126 :: 47 :: r) =
      (PathComp.normal [126], chunks r) :: bodyCompsR (chunks r) := by
    rw [compsRests, if_neg (by simp)]
    simp only [hchunks]
    rw [if_neg (by decide)]
    simp [bodyCompsR, junkChunk, compOf]
  have hcomp : components (126 :: 47 :: r) =
      PathComp.normal [126] :: bodyComps (chunks r) := by
    rw [components, hcr, List.map_cons, map_fst_bodyCompsR]
  have hone : components [126] = [PathComp.normal [126]] := by decide
  have hsw : startsWith [126] (126 :: 47 :: r) = true := by
    apply decide_eq_true
    rw [hcomp, hone]
    exact ⟨bodyComps (chunks r), rfl⟩
  have hl : (components [126]).length = 1 := by decide
  have hstrip : stripPrefixBytes [126] (126 :: 47 :: r) =
      rejoin 47 (trimBackChunks (trimFrontChunks (chunks r))) := by
    simp [stripPrefixBytes, hl, hcr]
  rw [expand_selection, if_pos hsw, hstrip]

/-- Re-splitting the joined, trimmed chunks gives them back after one
more round of trimming (including the degenerate all-junk case). -/
theorem chunks_rejoin_trims (cs : List (List Byte))
    (hfree : ∀ c ∈ cs, (47 : Byte) ∉ c) :
    trimBackChunks (trimFrontChunks
      (chunks (rejoin 47 (trimBackChunks (trimFrontChunks cs))))) =
      trimBackChunks (trimFrontChunks cs) := by
  by_cases hne : trimBackChunks (trimFrontChunks cs) = []
  · rw [hne]
    decide
  · have hfree2 : ∀ c ∈ trimBackChunks (trimFrontChunks cs), (47 : Byte) ∉ c :=
      fun c hc => hfree c (trims_subset cs c hc)
    rw [rejoin_chunks _ hne hfree2, trimFront_trimBack_trimFront, trimBack_idem]

theorem bodyComps_chunks_rejoin (cs : List (List Byte))
    (hfree : ∀ c ∈ cs, (47 : Byte) ∉ c) :
    bodyComps (chunks (rejoin 47 (trimBackChunks (trimFrontChunks cs)))) =
      bodyComps cs := by
  by_cases hne : trimBackChunks (trimFrontChunks cs) = []
  · rw [hne]
    have h0 : bodyComps (chunks (rejoin 47 ([] : List (List Byte)))) = [] := by
      decide
    rw [h0, ← bodyComps_trimFront cs, ← bodyComps_trimBack (trimFrontChunks cs),
      hne]
    rfl
  · have hfree2 : ∀ c ∈ trimBackChunks (trimFrontChunks cs), (47 : Byte) ∉ c :=
      fun c hc => hfree c (trims_subset cs c hc)
    rw [rejoin_chunks _ hne hfree2, bodyComps_trimBack, bodyComps_trimFront]

/-! ## Claim C4 -/

/-- Counterexample to claim C4: for the home directory itself (whose
first component is `/`, not `~`, so the claim covers it), the display
form is `~/` and expanding it back yields `home ++ /` — one byte longer
than the original path.  With home `/home/u`: `expand(toDisplay(p)) =
"/home/u/" ≠ "/home/u" = p`. -/
theorem C4_home_dir_counterexample :
    startsWith [126] [47, 104, 111, 109, 101, 47, 117] = false ∧
    toDisplay [47, 104, 111, 109, 101, 47, 117]
      [47, 104, 111, 109, 101, 47, 117] = [126, 47] ∧
    expand_selection [47, 104, 111, 109, 101, 47, 117]
      (toDisplay [47, 104, 111, 109, 101, 47, 117]
        [47, 104, 111, 109, 101, 47, 117]) =
      [47, 104, 111, 109, 101, 47, 117, 47] ∧
    expand_selection [47, 104, 111, 109, 101, 47, 117]
      (toDisplay [47, 104, 111, 109, 101, 47, 117]
        [47, 104, 111, 109, 101, 47, 117]) ≠
      [47, 104, 111, 109, 101, 47, 117] := by
  refine ⟨by decide, by decide, by decide, by decide⟩

/-- Claim C4 (amended): for every path whose first component is not
literally `~`, `expand(toDisplay(path))` is the same path up to lexical
path equality — its `Path::components` are exactly those of the
original.  Byte-for-byte equality can fail: the home directory itself
round-trips to `home ++ separator`, and redundant separators or `.`
segments under the home directory are normalized away by
`strip_prefix`. -/
theorem C4_expand_toDisplay_components (home p : List Byte)
    (hhome : home ≠ []) (hp : startsWith [126] p = false) :
    components (expand_selection home (toDisplay home p)) = components p := by
  by_cases hsw : startsWith home p = true
  · obtain ⟨k, pr, hlen, hget, hdecomp, hstrip⟩ :=
      startsWith_decomp home p hhome hsw
    have hdisp : toDisplay home p = 126 :: 47 :: stripPrefixBytes home p := by
      rw [toDisplay, if_pos hsw]
    have hfree : ∀ c ∈ pr.2, (47 : Byte) ∉ c :=
      compsRests_rest_sepFree p pr (List.get?_mem hget)
    rw [hdisp, hstrip, expand_tilde, chunks_rejoin_trims pr.2 hfree,
      components_append home _ hhome, bodyComps_chunks_rejoin pr.2 hfree,
      ← hdecomp]
  · have hp2 : ¬startsWith [126] p = true := by simp [hp]
    rw [toDisplay, if_neg hsw, if_neg hp2, expand_selection, if_neg hp2]

/-- Witness for C4 (amended) at home `/home/u` and the home directory
itself: the round trip produces a path with the same components. -/
theorem C4_expand_toDisplay_components_witness :
    (([47, 104, 111, 109, 101, 47, 117] : List Byte) ≠ [] ∧
      startsWith [126] [47, 104, 111, 109, 101, 47, 117] = false) ∧
    components (expand_selection [47, 104, 111, 109, 101, 47, 117]
      (toDisplay [47, 104, 111, 109, 101, 47, 117]
        [47, 104, 111, 109, 101, 47, 117])) =
      components [47, 104, 111, 109, 101, 47, 117] :=
  ⟨⟨by decide, by decide⟩,
    C4_expand_toDisplay_components [47, 104, 111, 109, 101, 47, 117]
      [47, 104, 111, 109, 101, 47, 117] (by decide) (by decide)⟩

/-! ## Lemmas: absolutization and claim C9 -/

theorem mem_splitSepAux_mem (sep : Byte) (x : List Byte) :
    ∀ acc c, c ∈ splitSepAux sep x acc → ∀ b ∈ c, b ∈ x ∨ b ∈ acc := by
  induction x with
  | nil =>
    intro acc c hc b hb
    simp [splitSepAux] at hc
    subst hc
    exact Or.inr (List.mem_reverse.mp hb)
  | cons a t ih =>
    intro acc c hc b hb
    by_cases ha : a = sep
    · simp [splitSepAux, ha] at hc
      rcases hc with hc | hc
      · subst hc
        exact Or.inr (List.mem_reverse.mp hb)
      · rcases ih [] c hc b hb with h | h
        · exact Or.inl (List.mem_cons_of_mem a h)
        · cases h
    · simp [splitSepAux, ha] at hc
      rcases ih (a :: acc) c hc b hb with h | h
      · exact Or.inl (List.mem_cons_of_mem a h)
      · rcases List.mem_cons.mp h with h | h
        · exact Or.inl (h ▸ List.mem_cons_self a t)
        · exact Or.inr h

theorem mem_of_mem_chunks (p c : List Byte) (hc : c ∈ chunks p) :
    ∀ b ∈ c, b ∈ p := by
  intro b hb
  rcases mem_splitSepAux_mem 47 p [] c hc b hb with h | h
  · exact h
  · cases h

theorem bodyComps_normal_mem (cs : List (List Byte)) (c : List Byte)
    (h : PathComp.normal c ∈ bodyComps cs) : c ∈ cs := by
  rw [bodyComps] at h
  obtain ⟨c2, hc2, he⟩ := List.mem_filterMap.mp h
  by_cases hj : junkChunk c2 = true
  · rw [if_pos hj] at he
    cases he
  · rw [if_neg hj] at he
    rw [compOf] at he
    by_cases hpp : c2 = [46, 46]
    · rw [if_pos hpp] at he
      cases he
    · rw [if_neg hpp] at he
      cases he
      exact hc2

theorem resolveStack_free (comps : List PathComp) :
    ∀ st0 st, (∀ c, PathComp.normal c ∈ comps → (10 : Byte) ∉ c) →
      (∀ c ∈ st0, (10 : Byte) ∉ c) → resolveStack comps st0 = some st →
      ∀ c ∈ st, (10 : Byte) ∉ c := by
  induction comps with
  | nil =>
    intro st0 st _ h0 hres
    cases hres
    exact h0
  | cons pc rest ih =>
    intro st0 st hn h0 hres
    match pc with
    | .normal c0 =>
      rw [resolveStack] at hres
      refine ih (st0 ++ [c0]) st
        (fun c hc => hn c (List.mem_cons_of_mem _ hc)) ?_ hres
      intro c hc
      rcases List.mem_append.mp hc with h | h
      · exact h0 c h
      · have hceq := List.mem_singleton.mp h
        subst hceq
        exact hn c (List.mem_cons_self _ _)
    | .parentDir =>
      match st0 with
      | [] =>
        simp [resolveStack] at hres
      | s :: ss =>
        simp only [resolveStack] at hres
        refine ih (s :: ss).dropLast st
          (fun c hc => hn c (List.mem_cons_of_mem _ hc)) ?_ hres
        intro c hc
        exact h0 c ((List.dropLast_sublist (s :: ss)).subset hc)
    | .curDir =>
      rw [resolveStack] at hres
      exact ih st0 st (fun c hc => hn c (List.mem_cons_of_mem _ hc)) h0 hres
    | .rootDir =>
      rw [resolveStack] at hres
      exact ih st0 st (fun c hc => hn c (List.mem_cons_of_mem _ hc)) h0 hres

theorem rejoin_not_mem (b : Byte) (hb : b ≠ 47) (cs : List (List Byte))
    (h : ∀ c ∈ cs, b ∉ c) : b ∉ rejoin 47 cs := by
  induction cs with
  | nil => simp [rejoin]
  | cons c cs ih =>
    match cs with
    | [] =>
      rw [show rejoin 47 [c] = c from rfl]
      exact h c (List.mem_cons_self c [])
    | d :: ds =>
      rw [show rejoin 47 (c :: d :: ds) = c ++ 47 :: rejoin 47 (d :: ds)
        from rfl]
      intro hmem
      rcases List.mem_append.mp hmem with h1 | h1
      · exact h c (List.mem_cons_self _ _) h1
      · rcases List.mem_cons.mp h1 with h2 | h2
        · exact hb h2
        · exact ih (fun y hy => h y (List.mem_cons_of_mem c hy)) h2

/-- Counterexample to claim C9: a path argument whose bytes contain a
newline (here `/a\nb`, a legal Unix file name) is absolutized unchanged
and written as the record `/a\nb\n`, which has an embedded newline before
the terminator — it will later be read back as two records. -/
theorem C9_newline_argument_counterexample :
    add_path_to_history [47, 99] [47, 97, 10, 98] =
      some [47, 97, 10, 98, 10] ∧
    (10 : Byte) ∈ ([47, 97, 10, 98, 10] : List Byte).dropLast := by
  refine ⟨by decide, by decide⟩

/-- Claim C9 (amended): for every path argument free of newline bytes
(and a newline-free absolute cwd), the record `add_path_to_history`
writes — on accept and in the `add` sub-invocation alike — is a
newline-terminated byte record with no embedded newline.  A path
argument that itself contains a newline byte violates the record
invariant, since nothing strips or escapes it. -/
theorem C9_record_newline_free (cwd p out : List Byte)
    (hcwd : cwd.head? = some 47) (hc : (10 : Byte) ∉ cwd)
    (hp : (10 : Byte) ∉ p) (hout : add_path_to_history cwd p = some out) :
    out ≠ [] ∧ out.getLast? = some 10 ∧ (10 : Byte) ∉ out.dropLast := by
  rw [add_path_to_history] at hout
  obtain ⟨abs, habs, hout2⟩ :
      ∃ abs, path_abs cwd p = some abs ∧ out = abs ++ [10] := by
    match habs : path_abs cwd p with
    | none =>
      rw [habs] at hout
      cases hout
    | some abs =>
      rw [habs] at hout
      have habs2 : abs ++ [10] = out := by simpa using hout
      exact ⟨abs, rfl, habs2.symm⟩
  have h10 : (10 : Byte) ∉ abs := by
    simp only [path_abs] at habs
    set full := if p.head? = some 47 then p else cwd ++ 47 :: p with hfull
    have hfree : (10 : Byte) ∉ full := by
      rw [hfull]
      by_cases hph : p.head? = some 47
      · rw [if_pos hph]
        exact hp
      · rw [if_neg hph]
        intro hmem
        rcases List.mem_append.mp hmem with h | h
        · exact hc h
        · rcases List.mem_cons.mp h with h | h
          · exact absurd h (by decide)
          · exact hp h
    have hfh : full.head? = some 47 := by
      rw [hfull]
      by_cases hph : p.head? = some 47
      · rw [if_pos hph]
        exact hph
      · rw [if_neg hph]
        match cwd, hcwd with
        | a :: t, hcwd =>
          have ha : a = 47 := by simpa using hcwd
          subst ha
          rfl
    rw [if_pos hfh] at habs
    match hres : resolveStack (bodyComps (chunks (full.drop 1))) [] with
    | none =>
      rw [hres] at habs
      cases habs
    | some st =>
      rw [hres] at habs
      have habs2 : (if st = [] then [47] else 47 :: rejoin 47 st) = abs := by
        simpa using habs
      have hstfree : ∀ c ∈ st, (10 : Byte) ∉ c := by
        refine resolveStack_free _ [] st ?_ (by simp) hres
        intro c hcmem hb
        have hcchunks : c ∈ chunks (full.drop 1) :=
          bodyComps_normal_mem _ c hcmem
        have hin : (10 : Byte) ∈ full.drop 1 :=
          mem_of_mem_chunks _ c hcchunks 10 hb
        exact hfree (List.drop_subset 1 full hin)
      rw [← habs2]
      by_cases hst : st = []
      · rw [if_pos hst]
        decide
      · rw [if_neg hst]
        intro hmem
        rcases List.mem_cons.mp hmem with h | h
        · exact absurd h (by decide)
        · exact rejoin_not_mem 10 (by decide) st hstfree h
  subst hout2
  refine ⟨by simp, List.getLast?_concat abs, by rwa [List.dropLast_concat]⟩

/-- Witness for C9 (amended) at cwd `/c` and path `/a`: the record is
`/a\n`. -/
theorem C9_record_newline_free_witness :
    (([47, 99] : List Byte).head? = some 47 ∧
      (10 : Byte) ∉ ([47, 99] : List Byte) ∧
      (10 : Byte) ∉ ([47, 97] : List Byte) ∧
      add_path_to_history [47, 99] [47, 97] = some [47, 97, 10]) ∧
    (([47, 97, 10] : List Byte) ≠ [] ∧
      ([47, 97, 10] : List Byte).getLast? = some 10 ∧
      (10 : Byte) ∉ ([47, 97, 10] : List Byte).dropLast) :=
  ⟨⟨by decide, by decide, by decide, by decide⟩,
    C9_record_newline_free [47, 99] [47, 97] [47, 97, 10]
      (by decide) (by decide) (by decide) (by decide)⟩

end Founder
